import Mathlib

/-!
Verification of the ToDoList task manager (src/main.cpp).

Shallow embedding conventions:
* C++ `std::string` is modelled as `List Char`.
* The persisted file is modelled as the list of its lines (what repeated
  `std::getline` yields); a file that cannot be opened is `Option.none`.
* C++ `int` is modelled as `Int`; `std::stoi` carries the explicit
  `int` range check (it throws `out_of_range` beyond `[-2^31, 2^31-1]`).
* All definitions mirror the control flow of the corresponding C++
  functions; the interactive shell (`main`) is not part of the store.
-/

namespace ToDoList

/-- The characters of `" \t\r\n"`, used by the `trim` helper in
src/main.cpp via `find_first_not_of` / `find_last_not_of`. -/
def isTrimWs (c : Char) : Bool := c = ' ' || c = '\t' || c = '\r' || c = '\n'

/-- `trim` from src/main.cpp: drop leading and trailing whitespace
(`" \t\r\n"`); a string of only whitespace becomes empty. -/
def trim (s : List Char) : List Char :=
  ((s.dropWhile isTrimWs).reverse.dropWhile isTrimWs).reverse

/-- The `Task` class: one to-do record. -/
structure Task where
  id : Int
  title : List Char
  notes : List Char
  completed : Bool
deriving Repr, DecidableEq

/-- `Task::escapeCommas`: escape `,` as `\,` and replace embedded
newline characters by a space. Backslashes are NOT escaped. -/
def escapeCommas : List Char → List Char
  | [] => []
  | c :: rest =>
    (if c = ',' then ['\\', ',']
     else if c = '\n' || c = '\r' then [' ']
     else [c]) ++ escapeCommas rest

/-- `Task::unescapeCommas`: a backslash immediately followed by a comma
(the `in[i] == '\\' && i + 1 < in.size() && in[i+1] == ','` test) decodes
to a literal comma; any other character is copied through. -/
def unescapeCommas : List Char → List Char
  | [] => []
  | [c] => [c]
  | c :: d :: rest =>
    if c = '\\' ∧ d = ',' then ',' :: unescapeCommas rest
    else c :: unescapeCommas (d :: rest)

/-- A decimal digit character, `'0'`..`'9'`. -/
def digitChar (d : Nat) : Char := Char.ofNat (48 + d)

/-- Fuel-driven printer for the decimal digits of a natural number,
most significant digit first (empty for `0`). -/
def natToCharsAux : Nat → Nat → List Char
  | 0, _ => []
  | fuel + 1, n =>
    if n = 0 then [] else natToCharsAux fuel (n / 10) ++ [digitChar (n % 10)]

/-- Decimal representation of a natural number, as printed by
`std::ostringstream`. -/
def natToChars (n : Nat) : List Char :=
  if n = 0 then ['0'] else natToCharsAux (n + 1) n

/-- Decimal representation of an `int`, as printed by `oss << id`. -/
def intToChars (i : Int) : List Char :=
  if i < 0 then '-' :: natToChars i.natAbs else natToChars i.toNat

/-- `Task::toCsv`: `id,completed,title,notes` with commas in the text
fields escaped. -/
def toCsv (t : Task) : List Char :=
  intToChars t.id ++ ',' :: (if t.completed then ['1'] else ['0']) ++
    ',' :: escapeCommas t.title ++ ',' :: escapeCommas t.notes

/-- The field-splitting loop of `Task::fromCsv`: split on unescaped
commas; a backslash marks the next character as escaped (and is itself
dropped); a pending escape at end of line is ignored and the current
field is pushed. -/
def splitFieldsAux (current : List Char) (escape : Bool) :
    List Char → List (List Char)
  | [] => [current]
  | c :: rest =>
    if escape then splitFieldsAux (current ++ [c]) false rest
    else if c = '\\' then splitFieldsAux current true rest
    else if c = ',' then current :: splitFieldsAux [] false rest
    else splitFieldsAux (current ++ [c]) false rest

/-- Split a line on unescaped commas, as `Task::fromCsv` does. -/
def splitFields (line : List Char) : List (List Char) :=
  splitFieldsAux [] false line

/-- The whitespace class of `std::isspace` in the default locale,
which `std::stoi` skips before the number. -/
def cIsSpace (c : Char) : Bool :=
  c = ' ' || c = '\t' || c = '\n' || c = '\x0b' || c = '\x0c' || c = '\r'

/-- Accumulate the value of a run of decimal digit characters. -/
def stoiDigits (ds : List Char) : Nat :=
  ds.foldl (fun a c => a * 10 + (c.toNat - 48)) 0

/-- `std::stoi` (base 10): skip leading whitespace, an optional sign,
then a maximal run of digits; `none` models a thrown
`invalid_argument` (no digits) or `out_of_range` (outside `int`).
Trailing non-digit characters are ignored. -/
def stoi (s : List Char) : Option Int :=
  match s.dropWhile cIsSpace with
  | [] => none
  | c :: rest =>
    let body := if c = '-' ∨ c = '+' then rest else c :: rest
    let ds := body.takeWhile Char.isDigit
    if ds = [] then none
    else
      let v : Int := if c = '-' then -(stoiDigits ds : Int) else (stoiDigits ds : Nat)
      if v < -2147483648 ∨ 2147483647 < v then none else some v

/-- `Task::fromCsv`: split the line on unescaped commas; fewer than 4
parts is a malformed line; parts beyond the fourth are ignored; `stoi`
failure on the id or completed field makes the line malformed;
`completed` is true for any nonzero parsed value. -/
def fromCsv (line : List Char) : Option Task :=
  match splitFields line with
  | p0 :: p1 :: p2 :: p3 :: _ =>
    match stoi p0, stoi p1 with
    | some i, some c =>
      some ⟨i, unescapeCommas p2, unescapeCommas p3, decide (c ≠ 0)⟩
    | _, _ => none
  | _ => none

/-- The `TaskManager` state: the task vector and the id counter
(`savePath` only selects the file and carries no store state). -/
structure TaskManager where
  tasks : List Task
  nextId : Int
deriving Repr, DecidableEq

/-- A freshly constructed `TaskManager`: empty, `nextId = 1`. -/
def TaskManager.new : TaskManager := ⟨[], 1⟩

/-- `TaskManager::addTask`: always appends a record built from
`generateId()` (which returns `nextId` and increments it), the given
title and notes, and `completed = false`; returns the new id. -/
def TaskManager.addTask (m : TaskManager) (title notes : List Char) :
    Int × TaskManager :=
  (m.nextId, ⟨m.tasks ++ [⟨m.nextId, title, notes, false⟩], m.nextId + 1⟩)

/-- The search-and-erase loop of `TaskManager::removeById`: erase the
first record with the given id. -/
def removeAux (id : Int) : List Task → Bool × List Task
  | [] => (false, [])
  | t :: rest =>
    if t.id = id then (true, rest)
    else
      let r := removeAux id rest
      (r.1, t :: r.2)

/-- `TaskManager::removeById`. -/
def TaskManager.removeById (m : TaskManager) (id : Int) : Bool × TaskManager :=
  let r := removeAux id m.tasks
  (r.1, ⟨r.2, m.nextId⟩)

/-- The loop of `TaskManager::toggleComplete`: flip `completed` on the
first record with the given id. -/
def toggleAux (id : Int) : List Task → Bool × List Task
  | [] => (false, [])
  | t :: rest =>
    if t.id = id then (true, { t with completed := !t.completed } :: rest)
    else
      let r := toggleAux id rest
      (r.1, t :: r.2)

/-- `TaskManager::toggleComplete`. -/
def TaskManager.toggleComplete (m : TaskManager) (id : Int) :
    Bool × TaskManager :=
  let r := toggleAux id m.tasks
  (r.1, ⟨r.2, m.nextId⟩)

/-- The loop of `TaskManager::editTask`: on the first record with the
given id, set the title if the new title is non-empty and the notes if
the new notes are non-empty. -/
def editAux (id : Int) (newTitle newNotes : List Char) :
    List Task → Bool × List Task
  | [] => (false, [])
  | t :: rest =>
    if t.id = id then
      (true,
        { t with
          title := if newTitle = [] then t.title else newTitle
          notes := if newNotes = [] then t.notes else newNotes } :: rest)
    else
      let r := editAux id newTitle newNotes rest
      (r.1, t :: r.2)

/-- `TaskManager::editTask`. -/
def TaskManager.editTask (m : TaskManager) (id : Int)
    (newTitle newNotes : List Char) : Bool × TaskManager :=
  let r := editAux id newTitle newNotes m.tasks
  (r.1, ⟨r.2, m.nextId⟩)

/-- `TaskManager::clearAll`: drop every record, keep `nextId`. -/
def TaskManager.clearAll (m : TaskManager) : Bool × TaskManager :=
  (true, ⟨[], m.nextId⟩)

/-- `TaskManager::list`. -/
def TaskManager.list (m : TaskManager) : List Task := m.tasks

/-- The `while (std::getline...)` loop of `TaskManager::load`: trim
each line, skip empty lines and lines `fromCsv` rejects, append parsed
tasks, and track the largest id seen (starting from 0). -/
def loadLoop : List (List Char) → List Task → Int → List Task × Int
  | [], acc, maxSeen => (acc, maxSeen)
  | line :: rest, acc, maxSeen =>
    let l := trim line
    if l = [] then loadLoop rest acc maxSeen
    else
      match fromCsv l with
      | some t =>
        loadLoop rest (acc ++ [t]) (if t.id > maxSeen then t.id else maxSeen)
      | none => loadLoop rest acc maxSeen

/-- `TaskManager::load`: `none` models a file that cannot be opened
(the function returns false before touching the state); otherwise the
collection is replaced by the parsed lines and
`nextId := maxSeen + 1`. -/
def TaskManager.load (m : TaskManager) (file : Option (List (List Char))) :
    Bool × TaskManager :=
  match file with
  | none => (false, m)
  | some lines =>
    let r := loadLoop lines [] 0
    (true, ⟨r.1, r.2 + 1⟩)

/-- `TaskManager::save`: one `toCsv` line per task, in collection
order (each followed by `"\n"`, so the file's lines are exactly these
strings). -/
def TaskManager.save (m : TaskManager) : List (List Char) :=
  m.tasks.map toCsv

/-- What one loaded line contributes: `none` when the trimmed line is
empty or malformed, `some t` when it parses. -/
def parseLine (line : List Char) : Option Task :=
  if trim line = [] then none else fromCsv (trim line)

/-- The store operations a driver can issue (save carries no state
change; load takes the modelled file contents). -/
inductive Op where
  | add (title notes : List Char)
  | remove (id : Int)
  | toggle (id : Int)
  | edit (id : Int) (newTitle newNotes : List Char)
  | clearAll
  | save
  | load (file : Option (List (List Char)))
deriving Repr, DecidableEq

/-- The state change of one operation. -/
def Op.apply (op : Op) (m : TaskManager) : TaskManager :=
  match op with
  | .add title notes => (m.addTask title notes).2
  | .remove id => (m.removeById id).2
  | .toggle id => (m.toggleComplete id).2
  | .edit id nt nn => (m.editTask id nt nn).2
  | .clearAll => (m.clearAll).2
  | .save => m
  | .load file => (m.load file).2

/-- Run a sequence of operations from a freshly constructed store. -/
def runOps (ops : List Op) : TaskManager :=
  ops.foldl (fun m op => op.apply m) TaskManager.new

/-! ### Helper lemmas about the list-returning loops -/

theorem editAux_split (id : Int) (nt nn : List Char) (pre : List Task)
    (t : Task) (post : List Task)
    (hpre : ∀ u ∈ pre, u.id ≠ id) (hid : t.id = id) :
    editAux id nt nn (pre ++ t :: post) =
      (true,
        pre ++
          { t with
            title := if nt = [] then t.title else nt
            notes := if nn = [] then t.notes else nn } :: post) := by
  induction pre with
  | nil => simp [editAux, hid]
  | cons a pre ih =>
    have ha : a.id ≠ id := hpre a (by simp)
    have ih' := ih fun u hu => hpre u (by simp [hu])
    simp [editAux, ha, ih']

theorem editAux_notMem (id : Int) (nt nn : List Char) (l : List Task)
    (h : id ∉ l.map Task.id) : editAux id nt nn l = (false, l) := by
  induction l with
  | nil => simp [editAux]
  | cons a l ih =>
    have ha : a.id ≠ id := by
      intro e
      exact h (by simp [e])
    have ih' := ih fun hm => h (by simp [hm])
    simp [editAux, ha, ih']

theorem toggleAux_split (id : Int) (pre : List Task) (t : Task)
    (post : List Task)
    (hpre : ∀ u ∈ pre, u.id ≠ id) (hid : t.id = id) :
    toggleAux id (pre ++ t :: post) =
      (true, pre ++ { t with completed := !t.completed } :: post) := by
  induction pre with
  | nil => simp [toggleAux, hid]
  | cons a pre ih =>
    have ha : a.id ≠ id := hpre a (by simp)
    have ih' := ih fun u hu => hpre u (by simp [hu])
    simp [toggleAux, ha, ih']

theorem toggleAux_notMem (id : Int) (l : List Task)
    (h : id ∉ l.map Task.id) : toggleAux id l = (false, l) := by
  induction l with
  | nil => simp [toggleAux]
  | cons a l ih =>
    have ha : a.id ≠ id := by
      intro e
      exact h (by simp [e])
    have ih' := ih fun hm => h (by simp [hm])
    simp [toggleAux, ha, ih']

theorem toggleAux_toggleAux (id : Int) (l : List Task) :
    (toggleAux id (toggleAux id l).2).2 = l := by
  induction l with
  | nil => simp [toggleAux]
  | cons a l ih =>
    by_cases ha : a.id = id
    · cases a with
      | mk i ti no co =>
        have ha2 : i = id := ha
        subst ha2
        simp [toggleAux]
    · simp [toggleAux, ha, ih]

/-! ### Claim theorems: C1, C5, C8, C9, C10 -/

/-- Claim C1, counterexample: `addTask` with a whitespace-only title (which
trims to empty) does not fail; it returns id 1, grows the collection to one
record, and advances `nextId` to 2. -/
theorem c1_counterexample :
    trim [' '] = [] ∧
    (TaskManager.new.addTask [' '] []).1 = 1 ∧
    (TaskManager.new.addTask [' '] []).2.tasks.length = 1 ∧
    (TaskManager.new.addTask [' '] []).2.nextId = 2 := by decide

/-- Claim C1, amended: `TaskManager::addTask` performs no title validation
at all — for every title (empty or not) and notes it succeeds, returns
`nextId`, appends one record with `completed = false`, and increments
`nextId`; the empty-after-trimming rejection is enforced only by the
interactive shell, which re-prompts while the trimmed title is empty. -/
theorem c1_amended (m : TaskManager) (title notes : List Char) :
    (m.addTask title notes).1 = m.nextId ∧
    (m.addTask title notes).2.tasks =
      m.tasks ++ [⟨m.nextId, title, notes, false⟩] ∧
    (m.addTask title notes).2.nextId = m.nextId + 1 :=
  ⟨rfl, rfl, rfl⟩

/-- Claim C5: when the file cannot be opened (modelled by `none`),
`TaskManager::load` returns failure and leaves both the record collection
and `nextId` exactly as they were. -/
theorem c5_theorem (m : TaskManager) :
    (m.load none).1 = false ∧
    (m.load none).2.tasks = m.tasks ∧
    (m.load none).2.nextId = m.nextId :=
  ⟨rfl, rfl, rfl⟩

/-- Claim C8: on a store holding a record with the given id (`t`, after a
prefix `pre` free of that id), `editTask` returns true and replaces that
record by one with the title updated only when `newTitle` is non-empty and
the notes updated only when `newNotes` is non-empty, leaving its id and
completed flag and every other record (and `nextId`) unchanged; on an id
not in the store it returns false and changes nothing. -/
theorem c8_theorem (m : TaskManager) (id : Int) (nt nn : List Char)
    (pre : List Task) (t : Task) (post : List Task)
    (hsplit : m.tasks = pre ++ t :: post)
    (hpre : ∀ u ∈ pre, u.id ≠ id) (hid : t.id = id) :
    m.editTask id nt nn =
      (true,
        ⟨pre ++
          { t with
            title := if nt = [] then t.title else nt
            notes := if nn = [] then t.notes else nn } :: post,
          m.nextId⟩) ∧
    (∀ id2, id2 ∉ m.tasks.map Task.id →
      m.editTask id2 nt nn = (false, m)) := by
  constructor
  · simp [TaskManager.editTask, hsplit, editAux_split id nt nn pre t post hpre hid]
  · intro id2 h2
    cases m with
    | mk tasks nextId =>
      simp only [TaskManager.editTask]
      rw [editAux_notMem id2 nt nn tasks h2]

/-- Claim C8, witness instance. -/
theorem c8_theorem_witness :
    (⟨[⟨1, ['a'], ['b'], false⟩, ⟨2, ['c'], ['d'], true⟩], 3⟩ :
        TaskManager).editTask 2 ['N'] [] =
      (true, ⟨[⟨1, ['a'], ['b'], false⟩, ⟨2, ['N'], ['d'], true⟩], 3⟩) ∧
    (∀ id2,
      id2 ∉ ((⟨[⟨1, ['a'], ['b'], false⟩, ⟨2, ['c'], ['d'], true⟩], 3⟩ :
        TaskManager).tasks.map Task.id) →
      (⟨[⟨1, ['a'], ['b'], false⟩, ⟨2, ['c'], ['d'], true⟩], 3⟩ :
        TaskManager).editTask id2 ['N'] [] =
        (false, ⟨[⟨1, ['a'], ['b'], false⟩, ⟨2, ['c'], ['d'], true⟩], 3⟩)) :=
  c8_theorem _ 2 ['N'] [] [⟨1, ['a'], ['b'], false⟩] ⟨2, ['c'], ['d'], true⟩ []
    rfl (by decide) rfl

/-- Claim C9: on a store holding a record with the given id (`t`, after a
prefix `pre` free of that id), `toggleComplete` returns true and flips only
that record's completed flag, leaving its id, title, notes, every other
record and `nextId` unchanged; applying it twice restores the original
record list; on an id not in the store it returns false and changes
nothing. -/
theorem c9_theorem (m : TaskManager) (id : Int)
    (pre : List Task) (t : Task) (post : List Task)
    (hsplit : m.tasks = pre ++ t :: post)
    (hpre : ∀ u ∈ pre, u.id ≠ id) (hid : t.id = id) :
    m.toggleComplete id =
      (true, ⟨pre ++ { t with completed := !t.completed } :: post, m.nextId⟩) ∧
    ((m.toggleComplete id).2.toggleComplete id).2.tasks = m.tasks ∧
    (∀ id2, id2 ∉ m.tasks.map Task.id →
      m.toggleComplete id2 = (false, m)) := by
  refine ⟨?_, ?_, ?_⟩
  · simp [TaskManager.toggleComplete, hsplit, toggleAux_split id pre t post hpre hid]
  · simp [TaskManager.toggleComplete, toggleAux_toggleAux]
  · intro id2 h2
    cases m with
    | mk tasks nextId =>
      simp only [TaskManager.toggleComplete]
      rw [toggleAux_notMem id2 tasks h2]

/-- Claim C9, witness instance. -/
theorem c9_theorem_witness :
    (⟨[⟨1, ['a'], ['b'], false⟩, ⟨2, ['c'], ['d'], true⟩], 3⟩ :
        TaskManager).toggleComplete 2 =
      (true, ⟨[⟨1, ['a'], ['b'], false⟩, ⟨2, ['c'], ['d'], false⟩], 3⟩) ∧
    (((⟨[⟨1, ['a'], ['b'], false⟩, ⟨2, ['c'], ['d'], true⟩], 3⟩ :
        TaskManager).toggleComplete 2).2.toggleComplete 2).2.tasks =
      [⟨1, ['a'], ['b'], false⟩, ⟨2, ['c'], ['d'], true⟩] ∧
    (∀ id2,
      id2 ∉ ((⟨[⟨1, ['a'], ['b'], false⟩, ⟨2, ['c'], ['d'], true⟩], 3⟩ :
        TaskManager).tasks.map Task.id) →
      (⟨[⟨1, ['a'], ['b'], false⟩, ⟨2, ['c'], ['d'], true⟩], 3⟩ :
        TaskManager).toggleComplete id2 =
        (false, ⟨[⟨1, ['a'], ['b'], false⟩, ⟨2, ['c'], ['d'], true⟩], 3⟩)) :=
  c9_theorem _ 2 [⟨1, ['a'], ['b'], false⟩] ⟨2, ['c'], ['d'], true⟩ []
    rfl (by decide) rfl

/-! ### Helper lemmas about the load loop -/

theorem loadLoop_eq (lines : List (List Char)) (acc : List Task) (mx : Int) :
    loadLoop lines acc mx =
      (acc ++ lines.filterMap parseLine,
        ((lines.filterMap parseLine).map Task.id).foldl
          (fun a i => if i > a then i else a) mx) := by
  induction lines generalizing acc mx with
  | nil => simp [loadLoop]
  | cons line rest ih =>
    rw [List.filterMap_cons]
    simp only [loadLoop]
    by_cases he : trim line = []
    · have hp : parseLine line = none := by simp [parseLine, he]
      simp [he, hp, ih]
    · cases hfc : fromCsv (trim line) with
      | none =>
        have hp : parseLine line = none := by simp [parseLine, he, hfc]
        simp [he, hfc, hp, ih]
      | some t =>
        have hp : parseLine line = some t := by simp [parseLine, he, hfc]
        simp [he, hfc, hp, ih]

theorem foldl_step_le (l : List Int) (a : Int) :
    a ≤ l.foldl (fun x i => if i > x then i else x) a := by
  induction l generalizing a with
  | nil => simp
  | cons b l ih =>
    refine le_trans ?_ (ih (if b > a then b else a))
    split <;> omega

theorem mem_le_foldl_step (l : List Int) (i : Int) (h : i ∈ l) :
    ∀ a : Int, i ≤ l.foldl (fun x j => if j > x then j else x) a := by
  induction l with
  | nil => simp at h
  | cons b l ih =>
    intro a
    rcases List.mem_cons.mp h with rfl | h2
    · rw [List.foldl_cons]
      refine le_trans ?_ (foldl_step_le l (if i > a then i else a))
      split <;> omega
    · rw [List.foldl_cons]
      exact ih h2 _

theorem foldl_step_const (l : List Int) (M : Int)
    (hub : ∀ i ∈ l, i ≤ M) :
    l.foldl (fun x j => if j > x then j else x) M = M := by
  induction l with
  | nil => simp
  | cons b l ih =>
    have hb : b ≤ M := hub b (by simp)
    have : (if b > M then b else M) = M := by split <;> omega
    rw [List.foldl_cons, this]
    exact ih fun i hi => hub i (by simp [hi])

theorem foldl_step_eq_max (l : List Int) (M : Int) (hmem : M ∈ l)
    (hub : ∀ i ∈ l, i ≤ M) :
    ∀ a : Int, a ≤ M → l.foldl (fun x j => if j > x then j else x) a = M := by
  induction l with
  | nil => simp at hmem
  | cons b l ih =>
    intro a ha
    have hb : b ≤ M := hub b (by simp)
    have hub2 : ∀ i ∈ l, i ≤ M := fun i hi => hub i (by simp [hi])
    rw [List.foldl_cons]
    rcases List.mem_cons.mp hmem with he | h2
    · have hstep : (if b > a then b else a) = b := by split <;> omega
      rw [hstep, he]
      exact foldl_step_const l b fun i hi => he ▸ hub2 i hi
    · exact ih h2 hub2 _ (by split <;> omega)

/-! ### Claim theorems: C4, C6 -/

/-- Claim C4, counterexample: a line that splits into five fields is
accepted by `fromCsv` (the code only rejects fewer than four fields), so
"exactly 4 fields" is not required. -/
theorem c4_counterexample :
    (splitFields ['1', ',', '0', ',', 'a', ',', 'b', ',', 'c']).length = 5 ∧
    fromCsv ['1', ',', '0', ',', 'a', ',', 'b', ',', 'c'] =
      some ⟨1, ['a'], ['b'], false⟩ := by decide

/-- Claim C4, amended: a line is accepted by `fromCsv` iff splitting it on
unescaped commas yields AT LEAST 4 fields whose first two parse under
`stoi` (fields beyond the fourth are ignored); a skipped line does not
prevent the other lines from being loaded. -/
theorem c4_amended (line bad : List Char) (pre post : List (List Char))
    (m m2 : TaskManager) (hbad : parseLine bad = none) :
    ((fromCsv line).isSome ↔
      4 ≤ (splitFields line).length ∧
      (stoi ((splitFields line).getD 0 [])).isSome ∧
      (stoi ((splitFields line).getD 1 [])).isSome) ∧
    (m.load (some (pre ++ bad :: post))).2.tasks =
      (m2.load (some (pre ++ post))).2.tasks := by
  constructor
  · rcases hs : splitFields line with _ | ⟨p0, _ | ⟨p1, _ | ⟨p2, _ | ⟨p3, ps⟩⟩⟩⟩ <;>
      simp [fromCsv, hs]
    cases h0 : stoi p0 <;> cases h1 : stoi p1 <;> simp [h0, h1]
  · simp [TaskManager.load, loadLoop_eq, List.filterMap_append,
      List.filterMap_cons, hbad]

/-- Claim C4, witness instance: the malformed 3-field line `1,0,a` is
skipped without disturbing the lines around it. -/
theorem c4_amended_witness :
    ((fromCsv ['1', ',', '0', ',', 'a']).isSome ↔
      4 ≤ (splitFields ['1', ',', '0', ',', 'a']).length ∧
      (stoi ((splitFields ['1', ',', '0', ',', 'a']).getD 0 [])).isSome ∧
      (stoi ((splitFields ['1', ',', '0', ',', 'a']).getD 1 [])).isSome) ∧
    (TaskManager.new.load
        (some ([['2', ',', '1', ',', 'x', ',', 'y']] ++
          ['1', ',', '0', ',', 'a'] :: [['3', ',', '0', ',', 'z', ',', 'w']]))).2.tasks =
      (TaskManager.new.load
        (some ([['2', ',', '1', ',', 'x', ',', 'y']] ++
          [['3', ',', '0', ',', 'z', ',', 'w']]))).2.tasks :=
  c4_amended ['1', ',', '0', ',', 'a'] ['1', ',', '0', ',', 'a']
    [['2', ',', '1', ',', 'x', ',', 'y']] [['3', ',', '0', ',', 'z', ',', 'w']]
    TaskManager.new TaskManager.new (by decide)

/-- Claim C6, counterexample: loading the single record `-5,0,a,b` succeeds
with one valid record whose maximum id is -5, yet `nextId` becomes 1, not
-5 + 1 = -4 (the running maximum starts at 0). -/
theorem c6_counterexample :
    (TaskManager.new.load
        (some [['-', '5', ',', '0', ',', 'a', ',', 'b']])).1 = true ∧
    (TaskManager.new.load
        (some [['-', '5', ',', '0', ',', 'a', ',', 'b']])).2.tasks.map Task.id =
      [-5] ∧
    (TaskManager.new.load
        (some [['-', '5', ',', '0', ',', 'a', ',', 'b']])).2.nextId = 1 ∧
    (1 : Int) ≠ -5 + 1 := by decide

/-- Claim C6, amended: every load of an openable file succeeds, and
`nextId` is `max(0, maximum loaded id) + 1`: when the valid loaded
records include a POSITIVE maximum id `M`, `nextId` is `M + 1` and the
next `addTask` returns `M + 1`; when every loaded id is nonpositive —
in particular when no valid record was loaded at all — `nextId` is 1
and the next `addTask` returns 1, because the running maximum starts
at 0. -/
theorem c6_amended (m : TaskManager) (lines : List (List Char))
    (title notes : List Char) (M : Int) :
    (m.load (some lines)).1 = true ∧
    ((M ∈ (m.load (some lines)).2.tasks.map Task.id ∧
        (∀ i ∈ (m.load (some lines)).2.tasks.map Task.id, i ≤ M) ∧
        0 < M) →
      (m.load (some lines)).2.nextId = M + 1 ∧
      ((m.load (some lines)).2.addTask title notes).1 = M + 1) ∧
    ((∀ i ∈ (m.load (some lines)).2.tasks.map Task.id, i ≤ 0) →
      (m.load (some lines)).2.nextId = 1 ∧
      ((m.load (some lines)).2.addTask title notes).1 = 1) := by
  have hload : m.load (some lines) =
      (true,
        ⟨lines.filterMap parseLine,
          (((lines.filterMap parseLine).map Task.id).foldl
            (fun a i => if i > a then i else a) 0) + 1⟩) := by
    simp [TaskManager.load, loadLoop_eq]
  rw [hload]
  refine ⟨rfl, ?_, ?_⟩
  · rintro ⟨hmem, hub, hpos⟩
    simp only at hmem hub
    have hfold := foldl_step_eq_max ((lines.filterMap parseLine).map Task.id) M
      hmem hub 0 (by omega)
    constructor <;> simp [TaskManager.addTask, hfold]
  · intro hub
    simp only at hub
    have hfold := foldl_step_const ((lines.filterMap parseLine).map Task.id) 0 hub
    constructor <;> simp [TaskManager.addTask, hfold]

/-- Claim C6, witness instance: loading ids {3, 7, 5} makes the next add
return 8; loading an empty file, and loading the single nonpositive id
-5, both leave `nextId` at 1 so the next add returns 1. -/
theorem c6_amended_witness :
    (TaskManager.new.load
        (some [['3', ',', '0', ',', 'a', ','],
          ['7', ',', '0', ',', 'b', ','],
          ['5', ',', '0', ',', 'c', ',']])).1 = true ∧
    ((TaskManager.new.load
        (some [['3', ',', '0', ',', 'a', ','],
          ['7', ',', '0', ',', 'b', ','],
          ['5', ',', '0', ',', 'c', ',']])).2.nextId = 7 + 1 ∧
      ((TaskManager.new.load
        (some [['3', ',', '0', ',', 'a', ','],
          ['7', ',', '0', ',', 'b', ','],
          ['5', ',', '0', ',', 'c', ',']])).2.addTask ['T'] []).1 = 7 + 1) ∧
    ((TaskManager.new.load (some [])).2.nextId = 1 ∧
      ((TaskManager.new.load (some [])).2.addTask ['T'] []).1 = 1) ∧
    ((TaskManager.new.load
        (some [['-', '5', ',', '0', ',', 'a', ',', 'b']])).2.nextId = 1 ∧
      ((TaskManager.new.load
        (some [['-', '5', ',', '0', ',', 'a', ',', 'b']])).2.addTask
          ['T'] []).1 = 1) :=
  ⟨(c6_amended TaskManager.new
      [['3', ',', '0', ',', 'a', ','],
        ['7', ',', '0', ',', 'b', ','],
        ['5', ',', '0', ',', 'c', ',']] ['T'] [] 7).1,
    (c6_amended TaskManager.new
      [['3', ',', '0', ',', 'a', ','],
        ['7', ',', '0', ',', 'b', ','],
        ['5', ',', '0', ',', 'c', ',']] ['T'] [] 7).2.1
      ⟨by decide, by decide, by decide⟩,
    (c6_amended TaskManager.new [] ['T'] [] 0).2.2 (by decide),
    (c6_amended TaskManager.new
      [['-', '5', ',', '0', ',', 'a', ',', 'b']] ['T'] [] 0).2.2
      (by decide)⟩

/-! ### Helper lemmas for op-sequence invariants -/

theorem removeAux_sublist (id : Int) (l : List Task) :
    (removeAux id l).2.Sublist l := by
  induction l with
  | nil => simp [removeAux]
  | cons a l ih =>
    by_cases ha : a.id = id
    · simp [removeAux, ha]
    · simpa [removeAux, ha] using ih.cons₂ a

theorem toggleAux_map_id (id : Int) (l : List Task) :
    (toggleAux id l).2.map Task.id = l.map Task.id := by
  induction l with
  | nil => simp [toggleAux]
  | cons a l ih =>
    by_cases ha : a.id = id
    · simp [toggleAux, ha]
    · simp [toggleAux, ha, ih]

theorem editAux_map_id (id : Int) (nt nn : List Char) (l : List Task) :
    (editAux id nt nn l).2.map Task.id = l.map Task.id := by
  induction l with
  | nil => simp [editAux]
  | cons a l ih =>
    by_cases ha : a.id = id
    · simp [editAux, ha]
    · simp [editAux, ha, ih]

/-- A load operation is duplicate-free when the records its file parses to
have pairwise distinct ids (trivially true for every other operation). -/
def goodLoad : Op → Bool
  | .load (some lines) =>
    decide ((lines.filterMap parseLine).map Task.id).Nodup
  | _ => true

theorem inv_preserved (ops : List Op) :
    ∀ m : TaskManager,
      (m.tasks.map Task.id).Nodup →
      (∀ i ∈ m.tasks.map Task.id, i < m.nextId) →
      (∀ op ∈ ops, goodLoad op = true) →
      ((ops.foldl (fun m op => op.apply m) m).tasks.map Task.id).Nodup ∧
      (∀ i ∈ (ops.foldl (fun m op => op.apply m) m).tasks.map Task.id,
        i < (ops.foldl (fun m op => op.apply m) m).nextId) := by
  induction ops with
  | nil => exact fun m h1 h2 _ => ⟨h1, h2⟩
  | cons op rest ih =>
    intro m h1 h2 hg
    rw [List.foldl_cons]
    refine ih (op.apply m) ?_ ?_ fun o ho => hg o (by simp [ho])
    all_goals
      cases op with
      | add title notes =>
        have hmap : ((Op.add title notes).apply m).tasks.map Task.id =
            m.tasks.map Task.id ++ [m.nextId] := by
          simp [Op.apply, TaskManager.addTask]
        have hni : m.nextId ∉ m.tasks.map Task.id := fun hmem =>
          absurd (h2 _ hmem) (lt_irrefl m.nextId)
        first
        | (rw [hmap]
           simp only [List.nodup_append, List.nodup_cons, List.nodup_nil]
           exact ⟨h1, ⟨by simp, by simp⟩, by simp [List.disjoint_singleton, hni]⟩)
        | (rw [hmap]
           intro i hi
           have hnext : ((Op.add title notes).apply m).nextId = m.nextId + 1 := rfl
           rw [hnext]
           rcases List.mem_append.mp hi with hi2 | hi2
           · have := h2 i hi2
             omega
           · simp at hi2
             omega)
      | remove id =>
        have hsub : (((Op.remove id).apply m).tasks.map Task.id).Sublist
            (m.tasks.map Task.id) := (removeAux_sublist id m.tasks).map Task.id
        first
        | exact h1.sublist hsub
        | exact fun i hi => h2 i (hsub.subset hi)
      | toggle id =>
        have hmap : ((Op.toggle id).apply m).tasks.map Task.id =
            m.tasks.map Task.id := toggleAux_map_id id m.tasks
        first
        | exact hmap ▸ h1
        | exact fun i hi => h2 i (hmap ▸ hi)
      | edit id nt nn =>
        have hmap : ((Op.edit id nt nn).apply m).tasks.map Task.id =
            m.tasks.map Task.id := editAux_map_id id nt nn m.tasks
        first
        | exact hmap ▸ h1
        | exact fun i hi => h2 i (hmap ▸ hi)
      | clearAll =>
        first
        | exact List.nodup_nil
        | exact fun i hi => absurd hi (by simp [Op.apply, TaskManager.clearAll])
      | save =>
        first
        | exact h1
        | exact h2
      | load file =>
        cases file with
        | none =>
          first
          | exact h1
          | exact h2
        | some lines =>
          have hload : (Op.load (some lines)).apply m =
              ⟨lines.filterMap parseLine,
                (((lines.filterMap parseLine).map Task.id).foldl
                  (fun a i => if i > a then i else a) 0) + 1⟩ := by
            simp [Op.apply, TaskManager.load, loadLoop_eq]
          have hnd : ((lines.filterMap parseLine).map Task.id).Nodup := by
            have := hg (Op.load (some lines)) (by simp)
            simpa [goodLoad] using this
          first
          | exact hload ▸ hnd
          | (rw [hload]
             dsimp only
             intro i hi
             have := mem_le_foldl_step _ i hi 0
             omega)

/-! ### Claim theorems: C3, C7 -/

/-- Claim C3, counterexample: loading a file whose two lines both carry
id 1 is a reachable store state (one `load` operation from a fresh store)
in which two records share an id. -/
theorem c3_counterexample :
    ¬ ((runOps
        [Op.load (some [['1', ',', '0', ',', 'a', ',', 'b'],
          ['1', ',', '0', ',', 'c', ',', 'd']])]).tasks.map Task.id).Nodup := by
  decide

/-- Claim C3, amended: after any sequence of add, remove, toggle, edit,
clearAll, save and load operations from a fresh store, no two records
share an id, PROVIDED every load's file parses to records with pairwise
distinct ids (the code never deduplicates what it loads; an arbitrary
file with duplicate ids violates the invariant). -/
theorem c3_amended (ops : List Op)
    (h : ∀ op ∈ ops, goodLoad op = true) :
    ((runOps ops).tasks.map Task.id).Nodup :=
  (inv_preserved ops TaskManager.new (by simp [TaskManager.new])
    (by simp [TaskManager.new]) h).1

/-- Claim C3, witness instance: a mixed operation sequence including a
well-formed load keeps ids pairwise distinct. -/
theorem c3_amended_witness :
    ((runOps
        [Op.add ['a'] [], Op.add ['b'] [], Op.remove 1,
          Op.load (some [['4', ',', '0', ',', 'x', ',', 'y'],
            ['2', ',', '1', ',', 'z', ',', 'w']]),
          Op.toggle 2, Op.edit 4 ['N'] [], Op.save,
          Op.add ['c'] []]).tasks.map Task.id).Nodup :=
  c3_amended
    [Op.add ['a'] [], Op.add ['b'] [], Op.remove 1,
      Op.load (some [['4', ',', '0', ',', 'x', ',', 'y'],
        ['2', ',', '1', ',', 'z', ',', 'w']]),
      Op.toggle 2, Op.edit 4 ['N'] [], Op.save,
      Op.add ['c'] []]
    (by decide)

/-- The five operations claim C7 ranges over (no load, no save). -/
def Op.isCore : Op → Bool
  | .save => false
  | .load _ => false
  | _ => true

/-- Number of add operations in a sequence. -/
def numAdds (ops : List Op) : Nat :=
  ops.countP fun op => match op with | .add _ _ => true | _ => false

/-- Run a sequence of operations, collecting the id returned by each
`addTask` call in order. -/
def runCollect : List Op → TaskManager → TaskManager × List Int
  | [], m => (m, [])
  | op :: rest, m =>
    let r := runCollect rest (op.apply m)
    match op with
    | .add title notes => (r.1, (m.addTask title notes).1 :: r.2)
    | _ => r

theorem runCollect_core (ops : List Op) :
    ∀ m : TaskManager, (∀ op ∈ ops, op.isCore = true) →
      (runCollect ops m).2 =
        (List.range (numAdds ops)).map (fun k : Nat => m.nextId + (k : Int)) ∧
      (runCollect ops m).1.nextId = m.nextId + (numAdds ops : Int) := by
  induction ops with
  | nil => intro m _; simp [runCollect, numAdds]
  | cons op rest ih =>
    intro m h
    have hop : op.isCore = true := h op (by simp)
    have hrest : ∀ o ∈ rest, o.isCore = true :=
      fun o ho => h o (List.mem_cons_of_mem _ ho)
    cases op with
    | add title notes =>
      obtain ⟨h1, h2⟩ := ih ((Op.add title notes).apply m) hrest
      have hnext : ((Op.add title notes).apply m).nextId = m.nextId + 1 := rfl
      rw [hnext] at h1 h2
      have hcnt : numAdds (Op.add title notes :: rest) = numAdds rest + 1 := by
        simp [numAdds, List.countP_cons]
      constructor
      · simp only [runCollect]
        rw [h1, hcnt, List.range_succ_eq_map, List.map_cons, List.map_map]
        refine congrArg₂ List.cons ?_ ?_
        · simp [TaskManager.addTask]
        · refine List.map_congr_left fun k _ => ?_
          simp only [Function.comp_apply]
          push_cast
          ring
      · simp only [runCollect]
        rw [h2, hcnt]
        push_cast
        ring
    | remove id =>
      obtain ⟨h1, h2⟩ := ih ((Op.remove id).apply m) hrest
      have hnext : ((Op.remove id).apply m).nextId = m.nextId := rfl
      rw [hnext] at h1 h2
      have hcnt : numAdds (Op.remove id :: rest) = numAdds rest := by
        simp [numAdds, List.countP_cons]
      exact ⟨by simp only [runCollect]; rw [h1, hcnt],
        by simp only [runCollect]; rw [h2, hcnt]⟩
    | toggle id =>
      obtain ⟨h1, h2⟩ := ih ((Op.toggle id).apply m) hrest
      have hnext : ((Op.toggle id).apply m).nextId = m.nextId := rfl
      rw [hnext] at h1 h2
      have hcnt : numAdds (Op.toggle id :: rest) = numAdds rest := by
        simp [numAdds, List.countP_cons]
      exact ⟨by simp only [runCollect]; rw [h1, hcnt],
        by simp only [runCollect]; rw [h2, hcnt]⟩
    | edit id nt nn =>
      obtain ⟨h1, h2⟩ := ih ((Op.edit id nt nn).apply m) hrest
      have hnext : ((Op.edit id nt nn).apply m).nextId = m.nextId := rfl
      rw [hnext] at h1 h2
      have hcnt : numAdds (Op.edit id nt nn :: rest) = numAdds rest := by
        simp [numAdds, List.countP_cons]
      exact ⟨by simp only [runCollect]; rw [h1, hcnt],
        by simp only [runCollect]; rw [h2, hcnt]⟩
    | clearAll =>
      obtain ⟨h1, h2⟩ := ih (Op.clearAll.apply m) hrest
      have hnext : (Op.clearAll.apply m).nextId = m.nextId := rfl
      rw [hnext] at h1 h2
      have hcnt : numAdds (Op.clearAll :: rest) = numAdds rest := by
        simp [numAdds, List.countP_cons]
      exact ⟨by simp only [runCollect]; rw [h1, hcnt],
        by simp only [runCollect]; rw [h2, hcnt]⟩
    | save => simp [Op.isCore] at hop
    | load file => simp [Op.isCore] at hop

/-- Claim C7: over any sequence of add, remove, toggle, edit and clearAll
operations from a fresh store, the ids returned by the adds are exactly
1, 2, 3, ... in order — pairwise distinct, strictly increasing, starting
at 1, never reused (remove and clearAll do not reset the counter). -/
theorem c7_theorem (ops : List Op) (h : ∀ op ∈ ops, op.isCore = true) :
    (runCollect ops TaskManager.new).2 =
      (List.range (numAdds ops)).map (fun k : Nat => (k : Int) + 1) ∧
    List.Pairwise (· < ·) (runCollect ops TaskManager.new).2 := by
  obtain ⟨h1, h2⟩ := runCollect_core ops TaskManager.new h
  have hnew : TaskManager.new.nextId = 1 := rfl
  rw [hnew] at h1
  constructor
  · rw [h1]
    exact List.map_congr_left fun k _ => by ring
  · rw [h1]
    refine List.Pairwise.map _ ?_ (List.pairwise_lt_range (numAdds ops))
    intro a b hab
    omega

/-- Claim C7, witness instance: three adds interleaved with remove and
clearAll return ids 1, 2, 3. -/
theorem c7_theorem_witness :
    (runCollect
        [Op.add ['a'] [], Op.remove 1, Op.add ['b'] [], Op.clearAll,
          Op.add ['c'] ['n']] TaskManager.new).2 =
      (List.range (numAdds
        [Op.add ['a'] [], Op.remove 1, Op.add ['b'] [], Op.clearAll,
          Op.add ['c'] ['n']])).map (fun k : Nat => (k : Int) + 1) ∧
    List.Pairwise (· < ·)
      (runCollect
        [Op.add ['a'] [], Op.remove 1, Op.add ['b'] [], Op.clearAll,
          Op.add ['c'] ['n']] TaskManager.new).2 :=
  c7_theorem
    [Op.add ['a'] [], Op.remove 1, Op.add ['b'] [], Op.clearAll,
      Op.add ['c'] ['n']]
    (by decide)

/-! ### Helper lemmas for the serialization round-trip -/

theorem unescapeCommas_no_backslash :
    ∀ (s : List Char), '\\' ∉ s → unescapeCommas s = s
  | [], _ => rfl
  | [_], _ => rfl
  | c :: d :: rest, h => by
    have hc : c ≠ '\\' := fun e => h (by simp [e])
    have h2 : '\\' ∉ d :: rest := fun hm => h (List.mem_cons_of_mem _ hm)
    show (if c = '\\' ∧ d = ',' then ',' :: unescapeCommas rest
        else c :: unescapeCommas (d :: rest)) = c :: d :: rest
    rw [if_neg (fun hand => hc hand.1),
      unescapeCommas_no_backslash (d :: rest) h2]

theorem splitFieldsAux_plain (s : List Char) :
    ∀ cur rest : List Char, (∀ c ∈ s, c ≠ '\\' ∧ c ≠ ',') →
      splitFieldsAux cur false (s ++ ',' :: rest) =
        (cur ++ s) :: splitFieldsAux [] false rest := by
  induction s with
  | nil => intro cur rest _; simp [splitFieldsAux]
  | cons c s ih =>
    intro cur rest h
    obtain ⟨h1, h2⟩ := h c (by simp)
    have ih2 := ih (cur ++ [c]) rest fun x hx => h x (by simp [hx])
    rw [List.cons_append]
    rw [show splitFieldsAux cur false (c :: (s ++ ',' :: rest)) =
        splitFieldsAux (cur ++ [c]) false (s ++ ',' :: rest) by
      simp [splitFieldsAux, h1, h2]]
    rw [ih2]
    simp

theorem splitFieldsAux_escaped (s : List Char) :
    ∀ cur rest : List Char, (∀ c ∈ s, c ≠ '\\' ∧ c ≠ '\n' ∧ c ≠ '\r') →
      splitFieldsAux cur false (escapeCommas s ++ ',' :: rest) =
        (cur ++ s) :: splitFieldsAux [] false rest := by
  induction s with
  | nil => intro cur rest _; simp [escapeCommas, splitFieldsAux]
  | cons c s ih =>
    intro cur rest h
    obtain ⟨h1, h2, h3⟩ := h c (by simp)
    have ih2 := ih (cur ++ [c]) rest fun x hx => h x (by simp [hx])
    by_cases hc : c = ','
    · subst hc
      rw [show escapeCommas (',' :: s) = '\\' :: ',' :: escapeCommas s by
        simp [escapeCommas]]
      rw [List.cons_append, List.cons_append]
      rw [show splitFieldsAux cur false
            ('\\' :: ',' :: (escapeCommas s ++ ',' :: rest)) =
          splitFieldsAux (cur ++ [',']) false (escapeCommas s ++ ',' :: rest) by
        simp [splitFieldsAux]]
      rw [ih2]
      simp
    · rw [show escapeCommas (c :: s) = c :: escapeCommas s by
        simp [escapeCommas, hc, h2, h3]]
      rw [List.cons_append]
      rw [show splitFieldsAux cur false (c :: (escapeCommas s ++ ',' :: rest)) =
          splitFieldsAux (cur ++ [c]) false (escapeCommas s ++ ',' :: rest) by
        simp [splitFieldsAux, h1, hc]]
      rw [ih2]
      simp

theorem splitFieldsAux_last (s : List Char) :
    ∀ cur : List Char, (∀ c ∈ s, c ≠ '\\' ∧ c ≠ '\n' ∧ c ≠ '\r') →
      splitFieldsAux cur false (escapeCommas s) = [cur ++ s] := by
  induction s with
  | nil => intro cur _; simp [escapeCommas, splitFieldsAux]
  | cons c s ih =>
    intro cur h
    obtain ⟨h1, h2, h3⟩ := h c (by simp)
    have ih2 := ih (cur ++ [c]) fun x hx => h x (by simp [hx])
    by_cases hc : c = ','
    · subst hc
      rw [show escapeCommas (',' :: s) = '\\' :: ',' :: escapeCommas s by
        simp [escapeCommas]]
      rw [show splitFieldsAux cur false ('\\' :: ',' :: escapeCommas s) =
          splitFieldsAux (cur ++ [',']) false (escapeCommas s) by
        simp [splitFieldsAux]]
      rw [ih2]
      simp
    · rw [show escapeCommas (c :: s) = c :: escapeCommas s by
        simp [escapeCommas, hc, h2, h3]]
      rw [show splitFieldsAux cur false (c :: escapeCommas s) =
          splitFieldsAux (cur ++ [c]) false (escapeCommas s) by
        simp [splitFieldsAux, h1, hc]]
      rw [ih2]
      simp

theorem digitChar_facts (d : Nat) (h : d < 10) :
    (digitChar d).toNat = 48 + d ∧ (digitChar d).isDigit = true ∧
    digitChar d ≠ ',' ∧ digitChar d ≠ '\\' ∧ cIsSpace (digitChar d) = false ∧
    isTrimWs (digitChar d) = false ∧ digitChar d ≠ '-' ∧ digitChar d ≠ '+' := by
  interval_cases d <;> exact ⟨rfl, rfl, by decide, by decide, by decide,
    by decide, by decide, by decide⟩

theorem natToCharsAux_eq (fuel : Nat) :
    ∀ n : Nat, n ≤ fuel →
      natToCharsAux fuel n = (Nat.digits 10 n).reverse.map digitChar := by
  induction fuel with
  | zero =>
    intro n hn
    interval_cases n
    simp [natToCharsAux]
  | succ fuel ih =>
    intro n hn
    by_cases h0 : n = 0
    · simp [natToCharsAux, h0]
    · have hdiv : n / 10 ≤ fuel := by
        have := Nat.div_lt_self (Nat.pos_of_ne_zero h0) (by norm_num : 1 < 10)
        omega
      rw [natToCharsAux, if_neg h0, ih (n / 10) hdiv,
        Nat.digits_def' (by norm_num : (1 : Nat) < 10) (Nat.pos_of_ne_zero h0)]
      simp

theorem stoiDigits_aux (l : List Nat) :
    ∀ a : Nat, (∀ d ∈ l, d < 10) →
      (l.map digitChar).foldl (fun x c => x * 10 + (c.toNat - 48)) a =
        a * 10 ^ l.length + Nat.ofDigits 10 l.reverse := by
  induction l with
  | nil => intro a _; simp
  | cons d l ih =>
    intro a h
    have hd : (digitChar d).toNat = 48 + d := (digitChar_facts d (h d (by simp))).1
    rw [List.map_cons, List.foldl_cons, hd]
    have he : a * 10 + (48 + d - 48) = a * 10 + d := by omega
    rw [he, ih (a * 10 + d) fun x hx => h x (by simp [hx]),
      List.reverse_cons, Nat.ofDigits_append]
    simp [Nat.ofDigits_singleton]
    ring

theorem stoiDigits_natToChars (n : Nat) : stoiDigits (natToChars n) = n := by
  by_cases h0 : n = 0
  · subst h0; rfl
  · rw [natToChars, if_neg h0, natToCharsAux_eq (n + 1) n (Nat.le_succ n),
      stoiDigits, stoiDigits_aux _ 0
        (fun d hd => Nat.digits_lt_base (by norm_num) (List.mem_reverse.mp hd))]
    simp [Nat.ofDigits_digits]

theorem natToChars_is_digits (n : Nat) :
    ∀ c ∈ natToChars n, ∃ d, d < 10 ∧ c = digitChar d := by
  by_cases h0 : n = 0
  · subst h0
    intro c hc
    simp [natToChars] at hc
    exact ⟨0, by norm_num, by rw [hc]; rfl⟩
  · rw [natToChars, if_neg h0, natToCharsAux_eq (n + 1) n (Nat.le_succ n)]
    intro c hc
    obtain ⟨d, hd, rfl⟩ := List.mem_map.mp hc
    exact ⟨d, Nat.digits_lt_base (by norm_num) (List.mem_reverse.mp hd), rfl⟩

theorem natToChars_ne_nil (n : Nat) : natToChars n ≠ [] := by
  by_cases h0 : n = 0
  · simp [natToChars, h0]
  · rw [natToChars, if_neg h0, natToCharsAux_eq (n + 1) n (Nat.le_succ n)]
    simp [Nat.digits_ne_nil_iff_ne_zero, h0]

theorem takeWhile_all {p : Char → Bool} :
    ∀ l : List Char, (∀ c ∈ l, p c = true) → l.takeWhile p = l
  | [], _ => rfl
  | c :: t, h => by
    have hc := h c (by simp)
    have ht := takeWhile_all t fun x hx => h x (by simp [hx])
    simp [List.takeWhile_cons, hc, ht]

theorem stoi_nonneg_print (n : Nat) (hr : (n : Int) ≤ 2147483647) :
    stoi (natToChars n) = some (n : Int) := by
  obtain ⟨c, cs, hcons⟩ := List.exists_cons_of_ne_nil (natToChars_ne_nil n)
  obtain ⟨d, hd10, hcd⟩ := natToChars_is_digits n c (by rw [hcons]; simp)
  obtain ⟨_, hdig, _, _, hsp, _, hminus, hplus⟩ := digitChar_facts d hd10
  subst hcd
  have hdigitall : ∀ x ∈ natToChars n, Char.isDigit x = true := by
    intro x hx
    obtain ⟨e, he10, rfl⟩ := natToChars_is_digits n x hx
    exact (digitChar_facts e he10).2.1
  have hdrop : (natToChars n).dropWhile cIsSpace = natToChars n := by
    rw [hcons, List.dropWhile_cons]
    simp [hsp]
  have htake := takeWhile_all (natToChars n) hdigitall
  have hne := natToChars_ne_nil n
  have hsd := stoiDigits_natToChars n
  have hrange : ¬((n : Int) < -2147483648 ∨ 2147483647 < (n : Int)) := by
    push_neg
    omega
  rw [stoi.eq_def, hdrop, hcons]
  simp [hminus, hplus, ← hcons, htake, hne, hsd, hrange]
  omega

theorem stoi_intToChars (i : Int) (h1 : -2147483648 ≤ i)
    (h2 : i ≤ 2147483647) : stoi (intToChars i) = some i := by
  by_cases hi : i < 0
  · rw [intToChars, if_pos hi]
    have hdigitall : ∀ x ∈ natToChars i.natAbs, Char.isDigit x = true := by
      intro x hx
      obtain ⟨e, he10, rfl⟩ := natToChars_is_digits i.natAbs x hx
      exact (digitChar_facts e he10).2.1
    have hdrop : ('-' :: natToChars i.natAbs).dropWhile cIsSpace =
        '-' :: natToChars i.natAbs := by
      rw [List.dropWhile_cons]
      simp [cIsSpace]
    have htake := takeWhile_all (natToChars i.natAbs) hdigitall
    have hne := natToChars_ne_nil i.natAbs
    have hsd := stoiDigits_natToChars i.natAbs
    have habs : -((i.natAbs : Nat) : Int) = i := by omega
    have hrange : ¬((-(i.natAbs : Int)) < -2147483648 ∨
        2147483647 < (-(i.natAbs : Int))) := by
      push_neg
      omega
    have hrange2 : ¬(i < -2147483648 ∨ 2147483647 < i) := by
      push_neg
      exact ⟨h1, by omega⟩
    rw [stoi.eq_def, hdrop]
    simp [htake, hne, hsd, habs, hrange, hrange2]
    rw [abs_of_nonpos (by omega : i ≤ 0)]
    refine ⟨⟨by omega, by omega⟩, by omega⟩
  · rw [intToChars, if_neg hi, stoi_nonneg_print i.toNat (by omega)]
    congr 1
    omega

/-! ### Trim and last-character lemmas -/

theorem dropWhile_of_head {p : Char → Bool} (l : List Char)
    (h : ∀ c, l.head? = some c → p c = false) : l.dropWhile p = l := by
  cases l with
  | nil => rfl
  | cons c t =>
    have := h c rfl
    simp [List.dropWhile_cons, this]

theorem trim_of_ends (l : List Char)
    (h1 : ∀ c, l.head? = some c → isTrimWs c = false)
    (h2 : ∀ c, l.getLast? = some c → isTrimWs c = false) : trim l = l := by
  rw [trim, dropWhile_of_head l h1,
    dropWhile_of_head l.reverse
      (fun c hc => h2 c (by rwa [List.head?_reverse] at hc)),
    List.reverse_reverse]

theorem escapeCommas_ne_nil :
    ∀ s : List Char, s ≠ [] → escapeCommas s ≠ []
  | [], h => absurd rfl h
  | c :: rest, _ => by
    simp only [escapeCommas]
    split <;> simp
    split <;> simp

theorem escapeCommas_getLast :
    ∀ s : List Char, (∀ c ∈ s, c ≠ '\n' ∧ c ≠ '\r') →
      (∀ c, s.getLast? = some c → c ≠ ' ' ∧ c ≠ '\t') →
      ∀ c2, (escapeCommas s).getLast? = some c2 → isTrimWs c2 = false
  | [], _, _ => by
    intro c2 hc2
    simp [escapeCommas] at hc2
  | [a], hnl, hlast => by
    intro c2 hc2
    obtain ⟨h1, h2⟩ := hnl a (by simp)
    obtain ⟨h3, h4⟩ := hlast a (by simp)
    by_cases ha : a = ','
    · subst ha
      simp [escapeCommas] at hc2
      subst hc2
      decide
    · simp [escapeCommas, ha, h1, h2] at hc2
      subst hc2
      simp [isTrimWs, h1, h2, h3, h4]
  | a :: b :: rest, hnl, hlast => by
    intro c2 hc2
    have hne : escapeCommas (b :: rest) ≠ [] := escapeCommas_ne_nil _ (by simp)
    rw [show escapeCommas (a :: b :: rest) =
        (if a = ',' then ['\\', ',']
         else if a = '\n' || a = '\r' then [' ']
         else [a]) ++ escapeCommas (b :: rest) from rfl,
      List.getLast?_append_of_ne_nil _ hne] at hc2
    exact escapeCommas_getLast (b :: rest)
      (fun c hc => hnl c (by simp [hc]))
      (fun c hc => hlast c (by rwa [List.getLast?_cons_cons]))
      c2 hc2

theorem intToChars_mem (i : Int) :
    ∀ c ∈ intToChars i, c = '-' ∨ ∃ d, d < 10 ∧ c = digitChar d := by
  intro c hc
  rw [intToChars] at hc
  split at hc
  · rcases List.mem_cons.mp hc with rfl | h2
    · exact Or.inl rfl
    · exact Or.inr (natToChars_is_digits _ c h2)
  · exact Or.inr (natToChars_is_digits _ c hc)

theorem intToChars_ne_nil (i : Int) : intToChars i ≠ [] := by
  rw [intToChars]
  split
  · simp
  · exact natToChars_ne_nil _

theorem intToChars_no_special (i : Int) :
    ∀ c ∈ intToChars i, c ≠ '\\' ∧ c ≠ ',' ∧ isTrimWs c = false := by
  intro c hc
  rcases intToChars_mem i c hc with rfl | ⟨d, hd, rfl⟩
  · exact ⟨by decide, by decide, by decide⟩
  · obtain ⟨_, _, hcomma, hbs, _, hws, _, _⟩ := digitChar_facts d hd
    exact ⟨hbs, hcomma, hws⟩

theorem toCsv_eq (t : Task) :
    toCsv t = intToChars t.id ++
      ',' :: ((if t.completed then ['1'] else ['0']) ++
        ',' :: (escapeCommas t.title ++ ',' :: escapeCommas t.notes)) := by
  simp [toCsv]

theorem toCsv_ne_nil (t : Task) : toCsv t ≠ [] := by
  rw [toCsv_eq]
  simp

theorem splitFields_toCsv (t : Task)
    (ht : ∀ c ∈ t.title, c ≠ '\\' ∧ c ≠ '\n' ∧ c ≠ '\r')
    (hn : ∀ c ∈ t.notes, c ≠ '\\' ∧ c ≠ '\n' ∧ c ≠ '\r') :
    splitFields (toCsv t) =
      [intToChars t.id, if t.completed then ['1'] else ['0'],
        t.title, t.notes] := by
  have h1 : ∀ c ∈ intToChars t.id, c ≠ '\\' ∧ c ≠ ',' := fun c hc =>
    ⟨(intToChars_no_special t.id c hc).1, (intToChars_no_special t.id c hc).2.1⟩
  have h2 : ∀ c ∈ (if t.completed then ['1'] else ['0']),
      c ≠ '\\' ∧ c ≠ ',' := by
    cases t.completed <;> simp
  rw [splitFields, toCsv_eq,
    splitFieldsAux_plain (intToChars t.id) [] _ h1,
    splitFieldsAux_plain (if t.completed then ['1'] else ['0']) [] _ h2,
    splitFieldsAux_escaped t.title [] _ ht,
    splitFieldsAux_last t.notes [] hn]
  simp

theorem fromCsv_toCsv (t : Task)
    (hid1 : -2147483648 ≤ t.id) (hid2 : t.id ≤ 2147483647)
    (ht : ∀ c ∈ t.title, c ≠ '\\' ∧ c ≠ '\n' ∧ c ≠ '\r')
    (hn : ∀ c ∈ t.notes, c ≠ '\\' ∧ c ≠ '\n' ∧ c ≠ '\r') :
    fromCsv (toCsv t) = some t := by
  have hsplit := splitFields_toCsv t ht hn
  have hstoi := stoi_intToChars t.id hid1 hid2
  have hbt : '\\' ∉ t.title := fun hm => (ht _ hm).1 rfl
  have hbn : '\\' ∉ t.notes := fun hm => (hn _ hm).1 rfl
  have hut := unescapeCommas_no_backslash t.title hbt
  have hun := unescapeCommas_no_backslash t.notes hbn
  rw [fromCsv.eq_def, hsplit]
  cases t with
  | mk i ti no co =>
    simp only at hstoi hut hun ⊢
    cases co
    · simp [hstoi, hut, hun, show stoi ['0'] = some 0 from by decide]
    · simp [hstoi, hut, hun, show stoi ['1'] = some 1 from by decide]

theorem toCsv_head_not_ws (t : Task) :
    ∀ c, (toCsv t).head? = some c → isTrimWs c = false := by
  intro c hc
  obtain ⟨c0, cs, h0⟩ := List.exists_cons_of_ne_nil (intToChars_ne_nil t.id)
  rw [toCsv_eq, h0, List.cons_append, List.head?_cons] at hc
  have hm : c ∈ intToChars t.id := by
    rw [h0]
    have hcc : c0 = c := by injection hc
    simp [hcc]
  exact (intToChars_no_special t.id c hm).2.2

theorem toCsv_last_not_ws (t : Task)
    (hnl : ∀ c ∈ t.notes, c ≠ '\n' ∧ c ≠ '\r')
    (hlast : ∀ c, t.notes.getLast? = some c → c ≠ ' ' ∧ c ≠ '\t') :
    ∀ c, (toCsv t).getLast? = some c → isTrimWs c = false := by
  intro c hc
  rw [toCsv_eq,
    List.getLast?_append_of_ne_nil _ (by simp : ',' :: ((if t.completed then ['1'] else ['0']) ++ ',' :: (escapeCommas t.title ++ ',' :: escapeCommas t.notes)) ≠ []),
    ← List.singleton_append,
    List.getLast?_append_of_ne_nil _ (by simp : (if t.completed then ['1'] else ['0']) ++ ',' :: (escapeCommas t.title ++ ',' :: escapeCommas t.notes) ≠ []),
    List.getLast?_append_of_ne_nil _ (by simp : ',' :: (escapeCommas t.title ++ ',' :: escapeCommas t.notes) ≠ []),
    ← List.singleton_append,
    List.getLast?_append_of_ne_nil _ (by simp : escapeCommas t.title ++ ',' :: escapeCommas t.notes ≠ []),
    List.getLast?_append_of_ne_nil _ (by simp : ',' :: escapeCommas t.notes ≠ [])] at hc
  by_cases hnil : t.notes = []
  · rw [hnil] at hc
    simp [escapeCommas] at hc
    rw [← hc]
    decide
  · rw [← List.singleton_append,
      List.getLast?_append_of_ne_nil _ (escapeCommas_ne_nil _ hnil)] at hc
    exact escapeCommas_getLast t.notes hnl hlast c hc

/-- The precondition under which one record round-trips through the file
format: its id fits in `int`, title and notes hold no backslash and no
line break, and the notes do not end in a space or tab (the trailing
whitespace would be eaten by `trim` during load). -/
def GoodTask (t : Task) : Bool :=
  decide (-2147483648 ≤ t.id) && decide (t.id ≤ 2147483647) &&
  t.title.all (fun c => !(c = '\\' || c = '\n' || c = '\r')) &&
  t.notes.all (fun c => !(c = '\\' || c = '\n' || c = '\r')) &&
  (match t.notes.getLast? with
   | some c => !(c = ' ' || c = '\t')
   | none => true)

theorem GoodTask_spec (t : Task) (h : GoodTask t = true) :
    (-2147483648 ≤ t.id ∧ t.id ≤ 2147483647) ∧
    (∀ c ∈ t.title, c ≠ '\\' ∧ c ≠ '\n' ∧ c ≠ '\r') ∧
    (∀ c ∈ t.notes, c ≠ '\\' ∧ c ≠ '\n' ∧ c ≠ '\r') ∧
    (∀ c, t.notes.getLast? = some c → c ≠ ' ' ∧ c ≠ '\t') := by
  rw [GoodTask] at h
  simp only [Bool.and_eq_true, decide_eq_true_eq, List.all_eq_true] at h
  obtain ⟨⟨⟨⟨h1, h2⟩, h3⟩, h4⟩, h5⟩ := h
  refine ⟨⟨h1, h2⟩, ?_, ?_, ?_⟩
  · intro c hc
    have := h3 c hc
    simp at this
    exact ⟨this.1.1, this.1.2, this.2⟩
  · intro c hc
    have := h4 c hc
    simp at this
    exact ⟨this.1.1, this.1.2, this.2⟩
  · intro c hc
    rw [hc] at h5
    simp at h5
    exact h5

theorem parseLine_toCsv (t : Task) (h : GoodTask t = true) :
    parseLine (toCsv t) = some t := by
  obtain ⟨⟨hid1, hid2⟩, ht, hn, hlast⟩ := GoodTask_spec t h
  have hnl : ∀ c ∈ t.notes, c ≠ '\n' ∧ c ≠ '\r' := fun c hc =>
    ⟨(hn c hc).2.1, (hn c hc).2.2⟩
  have htrim : trim (toCsv t) = toCsv t :=
    trim_of_ends _ (toCsv_head_not_ws t) (toCsv_last_not_ws t hnl hlast)
  rw [parseLine, htrim, if_neg (toCsv_ne_nil t)]
  exact fromCsv_toCsv t hid1 hid2 ht hn

theorem filterMap_parse_self (l : List Task)
    (h : ∀ t ∈ l, parseLine (toCsv t) = some t) :
    l.filterMap (parseLine ∘ toCsv) = l := by
  induction l with
  | nil => rfl
  | cons a l ih =>
    rw [List.filterMap_cons]
    simp only [Function.comp_apply, h a (by simp)]
    rw [ih fun t ht => h t (by simp [ht])]

/-! ### Claim theorems: C2 -/

/-- Claim C2, counterexample: the store holding the single record with
title `a\b` (backslash is printable, no line breaks) does not round-trip:
`escapeCommas` never escapes a backslash while the `fromCsv` split eats it
as an escape marker, so the title comes back as `ab`. -/
theorem c2_counterexample :
    (TaskManager.new.load (some
      (⟨[⟨1, ['a', '\\', 'b'], [], false⟩], 2⟩ : TaskManager).save)).2.tasks ≠
      [⟨1, ['a', '\\', 'b'], [], false⟩] := by decide

/-- Claim C2, amended: save-then-load into a fresh store reproduces the
exact ordered record sequence for every store whose records have ids in
`int` range and titles/notes free of backslashes and line breaks, with
notes not ending in a space or tab; this covers commas and empty notes.
Backslashes (lost by the escape scheme) and trailing whitespace in notes
(eaten by `trim`) must be excluded. -/
theorem c2_amended (m : TaskManager)
    (h : ∀ t ∈ m.tasks, GoodTask t = true) :
    (TaskManager.new.load (some m.save)).1 = true ∧
    (TaskManager.new.load (some m.save)).2.tasks = m.tasks := by
  constructor
  · rfl
  · have hfm : m.save.filterMap parseLine = m.tasks := by
      rw [TaskManager.save, List.filterMap_map]
      exact filterMap_parse_self m.tasks fun t ht => parseLine_toCsv t (h t ht)
    simp [TaskManager.load, loadLoop_eq, hfm]

/-- Claim C2, witness instance: a title containing a comma
(`Buy milk, eggs`), empty notes, and non-empty notes round-trip. -/
theorem c2_amended_witness :
    (TaskManager.new.load (some
      (⟨[⟨1, "Buy milk, eggs".toList, [], false⟩,
          ⟨2, "Walk dog".toList, "2%".toList, true⟩], 3⟩ :
        TaskManager).save)).1 = true ∧
    (TaskManager.new.load (some
      (⟨[⟨1, "Buy milk, eggs".toList, [], false⟩,
          ⟨2, "Walk dog".toList, "2%".toList, true⟩], 3⟩ :
        TaskManager).save)).2.tasks =
      [⟨1, "Buy milk, eggs".toList, [], false⟩,
        ⟨2, "Walk dog".toList, "2%".toList, true⟩] :=
  c2_amended
    ⟨[⟨1, "Buy milk, eggs".toList, [], false⟩,
        ⟨2, "Walk dog".toList, "2%".toList, true⟩], 3⟩
    (by decide)

/-- Claim C10: whenever the line splits into at least four fields and both
the id and the completed field parse under `stoi`, the line is accepted,
and `completed` is the boolean "parsed value is nonzero" — so any nonzero
integer (2, -1, ...) gives `completed = true` and 0 gives `false`. -/
theorem c10_theorem (line p0 p1 p2 p3 : List Char) (ps : List (List Char))
    (i c : Int)
    (hsplit : splitFields line = p0 :: p1 :: p2 :: p3 :: ps)
    (h0 : stoi p0 = some i) (h1 : stoi p1 = some c) :
    fromCsv line =
      some ⟨i, unescapeCommas p2, unescapeCommas p3, decide (c ≠ 0)⟩ := by
  simp [fromCsv, hsplit, h0, h1]

/-- Claim C10, witness instance: completed fields `2`, `-1` and `0`. -/
theorem c10_theorem_witness :
    fromCsv ['5', ',', '2', ',', 'a', ',', 'b'] =
      some ⟨5, ['a'], ['b'], true⟩ ∧
    fromCsv ['5', ',', '-', '1', ',', 'a', ',', 'b'] =
      some ⟨5, ['a'], ['b'], true⟩ ∧
    fromCsv ['5', ',', '0', ',', 'a', ',', 'b'] =
      some ⟨5, ['a'], ['b'], false⟩ := by
  refine ⟨?_, ?_, ?_⟩
  · have h := c10_theorem ['5', ',', '2', ',', 'a', ',', 'b']
      ['5'] ['2'] ['a'] ['b'] [] 5 2 (by decide) (by decide) (by decide)
    simpa using h
  · have h := c10_theorem ['5', ',', '-', '1', ',', 'a', ',', 'b']
      ['5'] ['-', '1'] ['a'] ['b'] [] 5 (-1) (by decide) (by decide) (by decide)
    simpa using h
  · have h := c10_theorem ['5', ',', '0', ',', 'a', ',', 'b']
      ['5'] ['0'] ['a'] ['b'] [] 5 0 (by decide) (by decide) (by decide)
    simpa using h

end ToDoList
